import Mathlib

/-!
Verification of `cloudinit/distros/helpers.py` (hosts-file and resolv.conf
structure-preserving editors).

Modelling conventions:
* Python strings are modelled as `List Char` (`Str`); line breaks are
  `'\n'`, `'\r'` and `'\r\n'` as in Python 2 `str.splitlines()`.
* Python whitespace (for `str.strip()` / `str.split(None)`) is the ASCII set
  space, tab, newline, carriage return, vertical tab, form feed.
* A document's in-memory state is its parsed entry list; a Python method that
  mutates `self` and may raise is modelled as a function returning the result
  together with the new entry list, where an exception leaves the entry list
  unchanged (in the source every `raise` happens before any mutation).
-/

abbrev Str := List Char

deriving instance DecidableEq for Except

/-- Python str whitespace (ASCII subset): the characters stripped by
`str.strip()` and split on by `str.split(None)`. -/
def isWS (c : Char) : Bool :=
  c = ' ' || c = '\t' || c = '\n' || c = '\r' || c = '\x0b' || c = '\x0c'

/-- Python `text.find(c)`: index of the first occurrence of `c`, `none` when
absent (Python returns -1; the caller filters the -1 values out). -/
def findChar (c : Char) : Str → Option Nat
  | [] => none
  | a :: t => if a = c then some 0 else (findChar c t).map (· + 1)

/-- Python `min` over a list of naturals (`none` for the empty list, on which
the source never calls it). -/
def minNat? : List Nat → Option Nat
  | [] => none
  | a :: t =>
    match minNat? t with
    | none => some a
    | some m => some (Nat.min a m)

/-- `_chop_comment(text, comment_chars)`: find the first position of any
comment character; everything before it is content, everything from it on is
the comment (empty comment when no comment character occurs). -/
def chop_comment (text : Str) (commentChars : List Char) : Str × Str :=
  match minNat? ((commentChars.map (fun c => findChar c text)).filterMap id) with
  | none => (text, [])
  | some m => (text.take m, text.drop m)

/-- Python 2 `str.splitlines()`: split into lines at `'\n'`, `'\r'`, or the
single two-character break `'\r\n'`, without a trailing empty line after a
trailing break. -/
def splitlines : Str → List Str
  | [] => []
  | '\r' :: '\n' :: t => [] :: splitlines t
  | c :: t =>
    if c = '\n' ∨ c = '\r' then [] :: splitlines t
    else
      match splitlines t with
      | [] => [[c]]
      | l :: ls => (c :: l) :: ls

/-- Python `str.lstrip()`. -/
def lstrip (s : Str) : Str := s.dropWhile isWS

/-- Python `str.rstrip()`. -/
def rstrip (s : Str) : Str := (s.reverse.dropWhile isWS).reverse

/-- Python `str.strip()`. -/
def strip (s : Str) : Str := rstrip (lstrip s)

/-- Python `str.split(None)`: split on runs of whitespace, discarding empty
fields (so leading/trailing whitespace produces no fields).  Written by
structural recursion on the characters; the lemmas `splitNone_eq_nil` and
`splitNone_eq_cons` below restate it in the run-based form: skip leading
whitespace, take the maximal non-whitespace run as a field, repeat. -/
def splitNone : Str → List Str
  | [] => []
  | c :: t =>
    if isWS c then splitNone t
    else
      match t with
      | [] => [[c]]
      | c2 :: _ =>
        if isWS c2 then [c] :: splitNone t
        else
          match splitNone t with
          | [] => [[c]]
          | tok :: toks => (c :: tok) :: toks

/-- Python `str.split(None, 1)`: leading whitespace skipped, the first field is
the first run of non-whitespace, the remainder (leading separator whitespace
dropped, trailing whitespace kept) is the second element when nonempty. -/
def splitNoneOnce (s : Str) : List Str :=
  match s.dropWhile isWS with
  | [] => []
  | c :: t =>
    let field := c :: t.takeWhile (fun a => !isWS a)
    let rest := (t.dropWhile (fun a => !isWS a)).dropWhile isWS
    if rest = [] then [field] else [field, rest]

/-- Python `"\t".join(pieces)`. -/
def joinTab (pieces : List Str) : Str := List.intercalate ['\t'] pieces

/-- Python `" ".join(pieces)`. -/
def joinSpace (pieces : List Str) : Str := List.intercalate [' '] pieces

/-- Python `"%s" % n` for an integer: decimal digit characters. -/
def natStr (n : Nat) : Str := Nat.toDigits 10 n

/-! ## HostsConf (hosts-file document) -/

/-- One parsed line of a hosts file.  The source stores loosely-typed tuples
`('blank', [line])`, `('all_comment', [line])`, `('option', [pieces, tail])`;
we store the payloads directly as a sum type. -/
inductive HostsEntry where
  | blank (line : Str)
  | all_comment (line : Str)
  | option (pieces : List Str) (tail : Str)
deriving DecidableEq, Repr

/-- `HostsConf._parse`, per line: blank when the stripped line is empty;
comment when the content before the first `#` of the stripped line is empty;
otherwise an option with whitespace-split fields and the verbatim comment
tail. -/
def hostsParseLine (line : Str) : HostsEntry :=
  if (strip line).length = 0 then .blank line
  else
    let ht := chop_comment (strip line) ['#']
    if ht.1.length = 0 then .all_comment line
    else .option (splitNone ht.1) ht.2

/-- `HostsConf._parse` over the whole text (the source loop appends one entry
per line of `contents.splitlines()`). -/
def HostsConf.parse (text : Str) : List HostsEntry :=
  (splitlines text).map hostsParseLine

/-- `HostsConf.get_entry(ip)`: the remaining fields of every option line whose
first field equals `ip` (the `len(pieces) and pieces[0] == ip` test). -/
def HostsConf.get_entry (contents : List HostsEntry) (ip : Str) : List (List Str) :=
  contents.filterMap fun e =>
    match e with
    | .option (p0 :: rest) _ => if p0 = ip then some rest else none
    | _ => none

/-- `HostsConf.del_entries(ip)`: non-option lines are kept; an option line is
dropped when its first field equals `ip` (`pass`), kept when its field list is
nonempty, and dropped otherwise (no branch appends it). -/
def HostsConf.del_entries : List HostsEntry → Str → List HostsEntry
  | [], _ => []
  | e :: rest, ip =>
    match e with
    | .option [] _ => HostsConf.del_entries rest ip
    | .option (p0 :: ps) tl =>
      if p0 = ip then HostsConf.del_entries rest ip
      else .option (p0 :: ps) tl :: HostsConf.del_entries rest ip
    | other => other :: HostsConf.del_entries rest ip

/-- `HostsConf.add_entry(ip, canonical_hostname, *aliases)`. -/
def HostsConf.add_entry (contents : List HostsEntry) (ip canonical_hostname : Str)
    (aliases : List Str) : List HostsEntry :=
  contents ++ [.option (ip :: canonical_hostname :: aliases) []]

/-- One line of `HostsConf.__str__`.  NOTE the blank case: the source executes
`contents.write("%s\n")` with no format argument, so the literal three
characters `%`, `s`, newline are emitted, not the stored original line. -/
def hostsRenderEntry : HostsEntry → Str
  | .blank _line => ['%', 's', '\n']
  | .all_comment line => line ++ ['\n']
  | .option pieces tail => joinTab pieces ++ tail ++ ['\n']

/-- `HostsConf.__str__`: concatenation of the rendered lines. -/
def HostsConf.render (contents : List HostsEntry) : Str :=
  (contents.map hostsRenderEntry).flatten

/-! ## ResolvConf (resolver-configuration document) -/

/-- One parsed line of a resolv.conf file; the source tuples are
`('blank', [line])`, `('all_comment', [line])`,
`('option', [cfg_opt, cfg_values, tail])`. -/
inductive ResolvEntry where
  | blank (line : Str)
  | all_comment (line : Str)
  | option (cfg_opt : Str) (cfg_value : Str) (comment_tail : Str)
deriving DecidableEq, Repr

/-- The closed keyword vocabulary of `ResolvConf._parse`. -/
def resolvKeywords : List Str :=
  ["nameserver".toList, "domain".toList, "search".toList,
   "sortlist".toList, "options".toList]

def nameserverKw : Str := "nameserver".toList
def searchKw : Str := "search".toList
def domainKw : Str := "domain".toList

/-- `ResolvConf._parse`, one line at index `i` (0-based; messages use `i+1`).
Split failure (fewer than two fields from `head.split(None, 1)`) raises the
line-numbered format error; a keyword outside the vocabulary raises the
unexpected-option error, which names the keyword and carries no line number. -/
def resolvParseLine (i : Nat) (line : Str) : Except Str ResolvEntry :=
  if (strip line).length = 0 then .ok (.blank line)
  else
    let ht := chop_comment line [';', '#']
    if (strip ht.1).length = 0 then .ok (.all_comment line)
    else
      match splitNoneOnce ht.1 with
      | [cfg_opt, cfg_values] =>
        if resolvKeywords.contains cfg_opt then .ok (.option cfg_opt cfg_values ht.2)
        else .error (("Unexpected resolv.conf option ").toList ++ cfg_opt)
      | _ => .error (("Incorrectly formatted resolv.conf line ").toList ++ natStr (i + 1))

/-- The `ResolvConf._parse` loop: entries accumulate in order and the first
failing line aborts the whole parse. -/
def ResolvConf.parseLines : Nat → List Str → Except Str (List ResolvEntry)
  | _, [] => .ok []
  | i, line :: rest =>
    match resolvParseLine i line with
    | .error e => .error e
    | .ok entry =>
      match ResolvConf.parseLines (i + 1) rest with
      | .error e => .error e
      | .ok entries => .ok (entry :: entries)

/-- `ResolvConf._parse` over the whole text.  An error means the Python
exception propagated: `self._contents` was never assigned and every later
query re-raises, so no partial document exists. -/
def ResolvConf.parse (text : Str) : Except Str (List ResolvEntry) :=
  ResolvConf.parseLines 0 (splitlines text)

/-- `ResolvConf._retr_option(opt_name)`: the values of the option lines whose
keyword matches, in order. -/
def ResolvConf.retr_option (contents : List ResolvEntry) (opt_name : Str) : List Str :=
  contents.filterMap fun e =>
    match e with
    | .option cfg_opt cfg_value _ => if cfg_opt = opt_name then some cfg_value else none
    | _ => none

/-- `ResolvConf.nameservers` property. -/
def ResolvConf.nameservers (contents : List ResolvEntry) : List Str :=
  ResolvConf.retr_option contents nameserverKw

/-- `ResolvConf.search_domains` property: every `search` value is whitespace
split and the nonempty tokens are flattened in order. -/
def ResolvConf.search_domains (contents : List ResolvEntry) : List Str :=
  (ResolvConf.retr_option contents searchKw).flatMap
    fun sdlist => (splitNone sdlist).filter (fun sd => sd ≠ [])

/-- One line of `ResolvConf.__str__`: blank lines render as a bare newline,
comments verbatim, options as keyword, one space, value, then the comment
tail when nonempty. -/
def resolvRenderEntry : ResolvEntry → Str
  | .blank _line => ['\n']
  | .all_comment line => line ++ ['\n']
  | .option cfg_opt cfg_value comment_tail =>
    let line := cfg_opt ++ [' '] ++ cfg_value
    (if comment_tail.length ≠ 0 then line ++ comment_tail else line) ++ ['\n']

/-- `ResolvConf.__str__`. -/
def ResolvConf.render (contents : List ResolvEntry) : Str :=
  (contents.map resolvRenderEntry).flatten

/-- Modelled from the spec: `cloudinit.util.uniq_list` is imported from
`cloudinit.util`, which is not part of the sources under verification.  The
spec describes its use as deduplication by exact string match that preserves
the original relative order with the new entry last, i.e. an order-preserving
deduplication keeping first occurrences. -/
def uniq_list (inList : List Str) : List Str :=
  inList.foldl (fun outList i => if i ∈ outList then outList else outList ++ [i]) []

/-- `ResolvConf._remove_option(opt_name)`'s per-item predicate `remove_opt`. -/
def removeOpt (opt_name : Str) (item : ResolvEntry) : Bool :=
  match item with
  | .option cfg_opt _ _ => cfg_opt = opt_name
  | _ => false

/-- `ResolvConf._remove_option(opt_name)`: keep the items for which
`remove_opt` is false. -/
def ResolvConf.remove_option (contents : List ResolvEntry) (opt_name : Str) :
    List ResolvEntry :=
  contents.filter fun c => !removeOpt opt_name c

/-- The message of the 3-nameserver `ValueError` (the Python `%r` quoting
around the nameserver and the quotes around the digit are omitted; the claims
depend only on which calls raise, not on the message text). -/
def nsLimitMsg (ns : Str) : Str :=
  ("Adding ").toList ++ ns ++ (" would go beyond the 3 maximum name servers").toList

/-- The message of the 6-search-domain `ValueError`. -/
def sdCountMsg (d : Str) : Str :=
  ("Adding ").toList ++ d ++ (" would go beyond the 6 maximum search domains").toList

/-- The message of the 256-character search-list `ValueError`. -/
def sdLenMsg (d : Str) : Str :=
  ("Adding ").toList ++ d ++
    (" would go beyond the 256 maximum search list character limit").toList

/-- `ResolvConf.add_nameserver(ns)`.  The pair is (result, state after the
call): a raise (`.error`) leaves the entry list unchanged because in the
source both raises occur before any mutation of `self._contents`. -/
def ResolvConf.add_nameserver (contents : List ResolvEntry) (ns : Str) :
    Except Str (List Str) × List ResolvEntry :=
  let current_ns := ResolvConf.retr_option contents nameserverKw
  let new_ns := uniq_list (current_ns ++ [ns])
  if new_ns.length = current_ns.length then (.ok current_ns, contents)
  else if current_ns.length ≥ 3 then (.error (nsLimitMsg ns), contents)
  else
    let contents2 := ResolvConf.remove_option contents nameserverKw
    (.ok new_ns,
      contents2 ++ new_ns.map fun n => ResolvEntry.option nameserverKw n [])

/-- `ResolvConf.add_search_domain(search_domain)`: note the successful
mutating branch returns `flat_sds`, the list as it was before the call. -/
def ResolvConf.add_search_domain (contents : List ResolvEntry) (search_domain : Str) :
    Except Str (List Str) × List ResolvEntry :=
  let flat_sds := ResolvConf.search_domains contents
  let new_sds := uniq_list (flat_sds ++ [search_domain])
  if flat_sds.length = new_sds.length then (.ok new_sds, contents)
  else if flat_sds.length ≥ 6 then (.error (sdCountMsg search_domain), contents)
  else
    let s_list := joinSpace new_sds
    if s_list.length > 256 then (.error (sdLenMsg search_domain), contents)
    else
      let contents2 := ResolvConf.remove_option contents searchKw
      (.ok flat_sds, contents2 ++ [ResolvEntry.option searchKw s_list []])

/-- `ResolvConf.local_domain` property (value of the first `domain` line). -/
def ResolvConf.local_domain (contents : List ResolvEntry) : Option Str :=
  match ResolvConf.retr_option contents domainKw with
  | [] => none
  | dm :: _ => some dm

/-- The `local_domain` setter. -/
def ResolvConf.set_local_domain (contents : List ResolvEntry) (domain : Str) :
    List ResolvEntry :=
  ResolvConf.remove_option contents domainKw ++ [ResolvEntry.option domainKw domain []]

/-! ## Generic list and string lemmas -/

theorem takeWhile_all {p : Char → Bool} {l : Str} (h : ∀ x ∈ l, p x = true) :
    l.takeWhile p = l := by
  induction l with
  | nil => rfl
  | cons a t ih =>
    simp [List.takeWhile_cons, h a (List.mem_cons_self a t),
      ih fun x hx => h x (List.mem_cons_of_mem a hx)]

theorem dropWhile_all {p : Char → Bool} {l : Str} (h : ∀ x ∈ l, p x = true) :
    l.dropWhile p = [] := by
  induction l with
  | nil => rfl
  | cons a t ih =>
    simp [List.dropWhile_cons, h a (List.mem_cons_self a t),
      ih fun x hx => h x (List.mem_cons_of_mem a hx)]

theorem takeWhile_append_all {p : Char → Bool} {u : Str} (v : Str)
    (h : ∀ x ∈ u, p x = true) : (u ++ v).takeWhile p = u ++ v.takeWhile p := by
  induction u with
  | nil => rfl
  | cons a t ih =>
    simp [List.takeWhile_cons, h a (List.mem_cons_self a t),
      ih fun x hx => h x (List.mem_cons_of_mem a hx)]

theorem dropWhile_append_all {p : Char → Bool} {u : Str} (v : Str)
    (h : ∀ x ∈ u, p x = true) : (u ++ v).dropWhile p = v.dropWhile p := by
  induction u with
  | nil => rfl
  | cons a t ih =>
    simp [List.dropWhile_cons, h a (List.mem_cons_self a t),
      ih fun x hx => h x (List.mem_cons_of_mem a hx)]

theorem dropWhile_append_ne_nil {p : Char → Bool} {u : Str} (v : Str)
    (h : u.dropWhile p ≠ []) : (u ++ v).dropWhile p = u.dropWhile p ++ v := by
  induction u with
  | nil => exact absurd rfl h
  | cons a t ih =>
    cases hpa : p a with
    | true => simpa [List.dropWhile_cons, hpa] using ih (by simpa [List.dropWhile_cons, hpa] using h)
    | false => simp [List.dropWhile_cons, hpa]

theorem mem_takeWhile {p : Char → Bool} {l : Str} {x : Char}
    (h : x ∈ l.takeWhile p) : p x = true := by
  induction l with
  | nil => cases h
  | cons a t ih =>
    rw [List.takeWhile_cons] at h
    by_cases hpa : p a = true
    · rw [if_pos hpa] at h
      rcases List.mem_cons.mp h with rfl | h2
      · exact hpa
      · exact ih h2
    · rw [if_neg hpa] at h; cases h

theorem dropWhile_head_false {p : Char → Bool} {l : Str} {c : Char} {t : Str}
    (h : l.dropWhile p = c :: t) : p c = false := by
  induction l with
  | nil => cases h
  | cons a u ih =>
    rw [List.dropWhile_cons] at h
    by_cases hpa : p a = true
    · rw [if_pos hpa] at h; exact ih h
    · rw [if_neg hpa] at h
      cases h
      exact Bool.not_eq_true _ ▸ Bool.of_not_eq_true hpa

theorem dropWhile_eq_nil_all {p : Char → Bool} {l : Str}
    (h : l.dropWhile p = []) : ∀ x ∈ l, p x = true := by
  induction l with
  | nil => intro x hx; cases hx
  | cons a t ih =>
    rw [List.dropWhile_cons] at h
    by_cases hpa : p a = true
    · rw [if_pos hpa] at h
      intro x hx
      rcases List.mem_cons.mp hx with rfl | h2
      · exact hpa
      · exact ih h x h2
    · rw [if_neg hpa] at h; cases h

/-- The content side of `_chop_comment` keeps exactly the characters before
the first comment character. -/
def notCommentChar (cs : List Char) (c : Char) : Bool := !(decide (c ∈ cs))

theorem chop_locations_nil (cs : List Char) :
    ((cs.map (fun c => findChar c ([] : Str))).filterMap id) = [] := by
  induction cs with
  | nil => rfl
  | cons a t ih =>
    rw [List.map_cons, List.filterMap_cons]
    exact ih

theorem chop_locations_cons_mem {cs : List Char} {a : Char} (t : Str) (ha : a ∈ cs) :
    0 ∈ (cs.map (fun c => findChar c (a :: t))).filterMap id := by
  refine List.mem_filterMap.mpr ⟨some 0, ?_, rfl⟩
  exact List.mem_map.mpr ⟨a, ha, by simp [findChar]⟩

theorem chop_locations_cons_not_mem {cs : List Char} {a : Char} (t : Str) (ha : a ∉ cs) :
    (cs.map (fun c => findChar c (a :: t))).filterMap id
      = ((cs.map (fun c => findChar c t)).filterMap id).map (· + 1) := by
  induction cs with
  | nil => rfl
  | cons b cs ih =>
    have hba : a ≠ b := fun h => ha (h ▸ List.mem_cons_self b cs)
    have hrest : a ∉ cs := fun h => ha (List.mem_cons_of_mem b h)
    have h1 : findChar b (a :: t) = (findChar b t).map (· + 1) := by
      simp [findChar, hba]
    cases hfb : findChar b t with
    | none => simpa [List.filterMap_cons, h1, hfb] using ih hrest
    | some m => simpa [List.filterMap_cons, h1, hfb] using ih hrest

theorem minNat?_cons (a : Nat) (t : List Nat) :
    minNat? (a :: t) =
      match minNat? t with
      | none => some a
      | some m => some (Nat.min a m) := rfl

theorem minNat?_le {l : List Nat} {x : Nat} (hx : x ∈ l) :
    ∃ m, minNat? l = some m ∧ m ≤ x := by
  induction l with
  | nil => cases hx
  | cons a t ih =>
    rcases List.mem_cons.mp hx with rfl | hxt
    · cases h : minNat? t with
      | none => exact ⟨x, by rw [minNat?_cons, h], Nat.le_refl x⟩
      | some m => exact ⟨Nat.min x m, by rw [minNat?_cons, h], Nat.min_le_left _ _⟩
    · obtain ⟨m, hm, hle⟩ := ih hxt
      exact ⟨Nat.min a m, by rw [minNat?_cons, hm],
        Nat.le_trans (Nat.min_le_right _ _) hle⟩

theorem minNat?_map_succ (l : List Nat) :
    minNat? (l.map (· + 1)) = (minNat? l).map (· + 1) := by
  induction l with
  | nil => rfl
  | cons a t ih =>
    rw [List.map_cons, minNat?_cons, ih, minNat?_cons]
    cases h : minNat? t with
    | none => rfl
    | some m =>
      show some (Nat.min (a + 1) (m + 1)) = some (Nat.min a m + 1)
      have : Nat.min (a + 1) (m + 1) = Nat.min a m + 1 := by
        simp only [Nat.min_def]
        split <;> split <;> omega
      rw [this]

theorem chop_comment_def (text : Str) (cs : List Char) :
    chop_comment text cs =
      match minNat? ((cs.map (fun c => findChar c text)).filterMap id) with
      | none => (text, [])
      | some m => (text.take m, text.drop m) := rfl

theorem chop_comment_eq_span (text : Str) (cs : List Char) :
    chop_comment text cs =
      (text.takeWhile (notCommentChar cs), text.dropWhile (notCommentChar cs)) := by
  induction text with
  | nil => rw [chop_comment_def, chop_locations_nil]; rfl
  | cons a t ih =>
    by_cases ha : a ∈ cs
    · obtain ⟨m, hm, hle⟩ := minNat?_le (chop_locations_cons_mem t ha)
      have hm0 : m = 0 := Nat.le_zero.mp hle
      subst hm0
      rw [chop_comment_def, hm]
      have hpa : notCommentChar cs a = false := by simp [notCommentChar, ha]
      show ([], a :: t) = _
      rw [List.takeWhile_cons, List.dropWhile_cons, hpa]
      simp
    · have hlocs := chop_locations_cons_not_mem t ha
      rw [chop_comment_def, hlocs, minNat?_map_succ]
      rw [chop_comment_def] at ih
      have hpa : notCommentChar cs a = true := by simp [notCommentChar, ha]
      rw [List.takeWhile_cons, List.dropWhile_cons, hpa]
      simp only [if_true]
      cases h : minNat? ((cs.map (fun c => findChar c t)).filterMap id) with
      | none =>
        rw [h] at ih
        have h1 : t.takeWhile (notCommentChar cs) = t := (congrArg Prod.fst ih).symm
        have h2 : t.dropWhile (notCommentChar cs) = [] := (congrArg Prod.snd ih).symm
        show (a :: t, []) = _
        rw [h1, h2]
      | some m =>
        rw [h] at ih
        have h1 : t.take m = t.takeWhile (notCommentChar cs) := congrArg Prod.fst ih
        have h2 : t.drop m = t.dropWhile (notCommentChar cs) := congrArg Prod.snd ih
        show ((a :: t).take (m + 1), (a :: t).drop (m + 1)) = _
        rw [List.take_succ_cons, List.drop_succ_cons, h1, h2]

/-! ## strip lemmas -/

theorem lstrip_cons_not_ws {c : Char} (t : Str) (hc : isWS c = false) :
    lstrip (c :: t) = c :: t := by
  rw [lstrip, List.dropWhile_cons, hc]
  rfl

theorem rstrip_concat_not_ws (u : Str) {c : Char} (hc : isWS c = false) :
    rstrip (u ++ [c]) = u ++ [c] := by
  rw [rstrip, List.reverse_append, List.reverse_singleton, List.singleton_append,
    List.dropWhile_cons, hc]
  simp

theorem rstrip_append_eq (s : Str) : ∃ u, s = rstrip s ++ u ∧ ∀ x ∈ u, isWS x = true := by
  refine ⟨(s.reverse.takeWhile isWS).reverse, ?_, ?_⟩
  · rw [rstrip]
    have h : s.reverse.takeWhile isWS ++ s.reverse.dropWhile isWS = s.reverse :=
      List.takeWhile_append_dropWhile isWS s.reverse
    calc s = s.reverse.reverse := (List.reverse_reverse s).symm
    _ = (s.reverse.takeWhile isWS ++ s.reverse.dropWhile isWS).reverse := by rw [h]
    _ = _ := by rw [List.reverse_append]
  · intro x hx
    exact mem_takeWhile (List.mem_reverse.mp hx)

theorem rstrip_ne_nil {c : Char} (t : Str) (hc : isWS c = false) :
    rstrip (c :: t) ≠ [] := by
  intro hnil
  rw [rstrip, List.reverse_eq_nil_iff] at hnil
  have := dropWhile_eq_nil_all hnil c (by simp)
  rw [hc] at this
  cases this

theorem rstrip_head {c : Char} (t : Str) (hc : isWS c = false) :
    ∃ t2, rstrip (c :: t) = c :: t2 := by
  obtain ⟨u, hu, _⟩ := rstrip_append_eq (c :: t)
  cases hr : rstrip (c :: t) with
  | nil => exact absurd hr (rstrip_ne_nil t hc)
  | cons b t2 =>
    rw [hr] at hu
    exact ⟨t2, by rw [List.cons_append] at hu; injection hu with h1 _; rw [h1]⟩

theorem rstrip_append_right (u : Str) {v : Str} (hv : rstrip v ≠ []) :
    rstrip (u ++ v) = u ++ rstrip v := by
  rw [rstrip, List.reverse_append]
  have hdv : v.reverse.dropWhile isWS ≠ [] := by
    intro hnil
    rw [rstrip, hnil] at hv
    exact hv rfl
  rw [dropWhile_append_ne_nil _ hdv, List.reverse_append, List.reverse_reverse]
  rfl


/-! ## splitlines and splitNone lemmas -/

/-- The catch-all row of `splitlines`, for a head that is no break
character. -/
theorem splitlines_other {c : Char} (t : Str) (hn : c ≠ '\n') (hr : c ≠ '\r') :
    splitlines (c :: t) =
      match splitlines t with
      | [] => [[c]]
      | l :: ls => (c :: l) :: ls := by
  rw [splitlines.eq_def]
  split
  · simp_all
  · simp_all
  · rename_i x c2 t2 h1 h2
    injection h2 with hc ht
    subst hc
    subst ht
    rw [if_neg (fun h => h.elim hn hr)]

theorem splitlines_newline_cons (l r : Str) (hn : '\n' ∉ l) (hr : '\r' ∉ l) :
    splitlines (l ++ '\n' :: r) = l :: splitlines r := by
  induction l with
  | nil => rfl
  | cons c t ih =>
    have hcn : c ≠ '\n' := fun h => hn (h ▸ List.mem_cons_self c t)
    have hcr : c ≠ '\r' := fun h => hr (h ▸ List.mem_cons_self c t)
    have htn : '\n' ∉ t := fun h => hn (List.mem_cons_of_mem c h)
    have htr : '\r' ∉ t := fun h => hr (List.mem_cons_of_mem c h)
    rw [List.cons_append, splitlines_other _ hcn hcr, ih htn htr]

theorem splitlines_flatten (lines : List Str) (hn : ∀ l ∈ lines, '\n' ∉ l)
    (hr : ∀ l ∈ lines, '\r' ∉ l) :
    splitlines ((lines.map (fun l => l ++ ['\n'])).flatten) = lines := by
  induction lines with
  | nil => rfl
  | cons l rest ih =>
    rw [List.map_cons, List.flatten_cons, List.append_assoc, List.singleton_append,
      splitlines_newline_cons _ _ (hn l (List.mem_cons_self l rest))
        (hr l (List.mem_cons_self l rest)),
      ih (fun x hx => hn x (List.mem_cons_of_mem l hx))
        (fun x hx => hr x (List.mem_cons_of_mem l hx))]

theorem splitNone_eq_nil {s : Str} (h : s.dropWhile isWS = []) : splitNone s = [] := by
  induction s with
  | nil => rfl
  | cons c t ih =>
    rw [List.dropWhile_cons] at h
    by_cases hc : isWS c = true
    · rw [if_pos hc] at h
      simp only [splitNone]
      rw [if_pos hc]
      exact ih h
    · rw [if_neg hc] at h
      cases h

theorem splitNone_eq_cons {s : Str} {c : Char} {t : Str} (h : s.dropWhile isWS = c :: t) :
    splitNone s =
      (c :: t.takeWhile (fun a => !isWS a)) :: splitNone (t.dropWhile (fun a => !isWS a)) := by
  induction s generalizing c t with
  | nil => cases h
  | cons a r ih =>
    rw [List.dropWhile_cons] at h
    by_cases ha : isWS a = true
    · rw [if_pos ha] at h
      simp only [splitNone]
      rw [if_pos ha]
      exact ih h
    · rw [if_neg ha] at h
      injection h with h1 h2
      subst h1
      subst h2
      simp only [splitNone]
      rw [if_neg ha]
      cases r with
      | nil => rfl
      | cons c2 r2 =>
        show (if isWS c2 = true then [a] :: splitNone (c2 :: r2)
          else
            match splitNone (c2 :: r2) with
            | [] => [[a]]
            | tok :: toks => (a :: tok) :: toks)
          = (a :: List.takeWhile (fun a => !isWS a) (c2 :: r2))
              :: splitNone (List.dropWhile (fun a => !isWS a) (c2 :: r2))
        by_cases hc2 : isWS c2 = true
        · rw [if_pos hc2]
          simp [List.takeWhile_cons, List.dropWhile_cons, hc2]
        · have hc2f : isWS c2 = false := by simpa using hc2
          rw [if_neg hc2]
          have hrec := ih (show List.dropWhile isWS (c2 :: r2) = c2 :: r2 by
            rw [List.dropWhile_cons, if_neg hc2])
          rw [hrec]
          simp [List.takeWhile_cons, List.dropWhile_cons, hc2f]

/-- `splitNone` depends only on the whitespace-stripped front of its input. -/
theorem splitNone_congr {s s2 : Str} (h : s.dropWhile isWS = s2.dropWhile isWS) :
    splitNone s = splitNone s2 := by
  cases h2 : s2.dropWhile isWS with
  | nil => rw [splitNone_eq_nil (h.trans h2), splitNone_eq_nil h2]
  | cons c t => rw [splitNone_eq_cons (h.trans h2), splitNone_eq_cons h2]

/-- Every token produced by `split(None)` is nonempty and whitespace free. -/
theorem splitNone_tokens (s : Str) :
    ∀ tok ∈ splitNone s, tok ≠ [] ∧ ∀ c ∈ tok, isWS c = false := by
  have hgen : ∀ n (s : Str), s.length ≤ n →
      ∀ tok ∈ splitNone s, tok ≠ [] ∧ ∀ c ∈ tok, isWS c = false := by
    intro n
    induction n with
    | zero =>
      intro s hs tok htok
      have : s = [] := List.length_eq_zero.mp (Nat.le_zero.mp hs)
      subst this
      rw [@splitNone_eq_nil [] rfl] at htok
      cases htok
    | succ n ih =>
      intro s hs tok htok
      cases hdrop : s.dropWhile isWS with
      | nil =>
        rw [splitNone_eq_nil hdrop] at htok
        cases htok
      | cons c t =>
        rw [splitNone_eq_cons hdrop] at htok
        rcases List.mem_cons.mp htok with rfl | hrec
        · refine ⟨by simp, ?_⟩
          intro x hx
          rcases List.mem_cons.mp hx with rfl | hxt
          · exact dropWhile_head_false hdrop
          · have := mem_takeWhile hxt
            simpa using this
        · have hlen : (t.dropWhile (fun a => !isWS a)).length ≤ n := by
            have h1 : (s.dropWhile isWS).length ≤ s.length :=
              (List.dropWhile_suffix isWS).length_le
            have h2 : (t.dropWhile (fun a => !isWS a)).length ≤ t.length :=
              (List.dropWhile_suffix (fun a => !isWS a)).length_le
            rw [hdrop] at h1
            simp only [List.length_cons] at h1
            omega
          exact ih _ hlen tok hrec
  exact hgen s.length s (Nat.le_refl _)

theorem intercalate_single (sep : Str) (a : Str) : List.intercalate sep [a] = a := by
  simp [List.intercalate, List.intersperse]

theorem intercalate_cons2 (sep a b : Str) (rest : List Str) :
    List.intercalate sep (a :: b :: rest) =
      a ++ sep ++ List.intercalate sep (b :: rest) := by
  simp [List.intercalate, List.intersperse]

/-- `split(None)` recovers the fields from a single-separator join, when every
field is nonempty and whitespace free and the separator is whitespace. -/
theorem splitNone_intercalate {sep : Char} (hsep : isWS sep = true) (fields : List Str)
    (hf : ∀ f ∈ fields, f ≠ [] ∧ ∀ c ∈ f, isWS c = false) :
    splitNone (List.intercalate [sep] fields) = fields := by
  induction fields with
  | nil => exact @splitNone_eq_nil [] rfl
  | cons f rest ih =>
    obtain ⟨hne, hchars⟩ := hf f (List.mem_cons_self f rest)
    cases f with
    | nil => exact absurd rfl hne
    | cons c ft =>
      have hc : isWS c = false := hchars c (List.mem_cons_self _ _)
      have hft : ∀ x ∈ ft, (fun a => !isWS a) x = true := by
        intro x hx
        simp [hchars x (List.mem_cons_of_mem _ hx)]
      cases rest with
      | nil =>
        rw [intercalate_single]
        rw [splitNone_eq_cons (lstrip_cons_not_ws ft hc)]
        rw [takeWhile_all hft, dropWhile_all hft, @splitNone_eq_nil [] rfl]
      | cons g rest2 =>
        rw [intercalate_cons2]
        have hjoin : (c :: ft) ++ [sep] ++ List.intercalate [sep] (g :: rest2)
            = c :: (ft ++ sep :: List.intercalate [sep] (g :: rest2)) := by
          simp
        rw [hjoin]
        have hdrop1 : (c :: (ft ++ sep :: List.intercalate [sep] (g :: rest2))).dropWhile isWS
            = c :: (ft ++ sep :: List.intercalate [sep] (g :: rest2)) :=
          lstrip_cons_not_ws _ hc
        rw [splitNone_eq_cons hdrop1]
        rw [takeWhile_append_all _ hft, dropWhile_append_all _ hft]
        rw [List.takeWhile_cons, List.dropWhile_cons]
        simp only [hsep, Bool.not_true, Bool.false_eq_true, if_false, List.append_nil]
        congr 1
        · -- the recursive call equals splitNone on the remaining intercalation
          have hg : g ≠ [] ∧ ∀ c2 ∈ g, isWS c2 = false :=
            hf g (List.mem_cons_of_mem _ (List.mem_cons_self g rest2))
          have hcongr : (sep :: List.intercalate [sep] (g :: rest2)).dropWhile isWS
              = (List.intercalate [sep] (g :: rest2)).dropWhile isWS := by
            rw [List.dropWhile_cons, hsep]
            simp
          rw [splitNone_congr hcongr]
          exact ih fun x hx => hf x (List.mem_cons_of_mem _ hx)

/-! ## Round-trip analysis for hosts lines -/

/-- A hosts option line already in rendered form: nonempty fields joined by
single tab characters, no whitespace and no `#` inside fields, optionally
followed directly by a `#`-introduced comment tail containing no line break
(`'\n'` or `'\r'`) and no trailing whitespace. -/
def GoodHostsOptionLine (l : Str) : Prop :=
  ∃ fields tail,
    fields ≠ [] ∧
    (∀ f ∈ fields, f ≠ [] ∧ ∀ c ∈ f, isWS c = false ∧ c ≠ '#') ∧
    (tail = [] ∨ ((∃ t2, tail = '#' :: t2) ∧ '\n' ∉ tail ∧ '\r' ∉ tail
        ∧ rstrip tail = tail)) ∧
    l = joinTab fields ++ tail

/-- A hosts comment line: no line break (`'\n'` or `'\r'`) inside, and its
first non-whitespace character is `#` (such a line is stored and re-emitted
verbatim). -/
def GoodHostsCommentLine (l : Str) : Prop :=
  '\n' ∉ l ∧ '\r' ∉ l ∧ ∃ t2, lstrip l = '#' :: t2

/-- A hosts line whose parse/render round trip can be exact: a comment line or
a tab-normalized option line.  Blank lines are deliberately excluded: the
renderer emits the literal text `%s` for them. -/
def GoodHostsLine (l : Str) : Prop := GoodHostsCommentLine l ∨ GoodHostsOptionLine l

theorem joinTab_mem_char {fields : List Str} {c : Char} (hc : c ∈ joinTab fields) :
    c = '\t' ∨ ∃ f ∈ fields, c ∈ f := by
  induction fields with
  | nil => cases hc
  | cons f rest ih =>
    cases rest with
    | nil =>
      rw [joinTab, intercalate_single] at hc
      exact Or.inr ⟨f, List.mem_cons_self f [], hc⟩
    | cons g rest2 =>
      rw [joinTab, intercalate_cons2] at hc
      rcases List.mem_append.mp hc with h1 | h2
      · rcases List.mem_append.mp h1 with h3 | h4
        · exact Or.inr ⟨f, List.mem_cons_self f _, h3⟩
        · exact Or.inl (List.mem_singleton.mp h4)
      · rcases ih h2 with h5 | ⟨f2, hf2, hcf2⟩
        · exact Or.inl h5
        · exact Or.inr ⟨f2, List.mem_cons_of_mem f hf2, hcf2⟩

theorem joinTab_concat {fields : List Str} (hne : fields ≠ [])
    (hf : ∀ f ∈ fields, f ≠ []) :
    ∃ u c, joinTab fields = u ++ [c] ∧ ∃ f ∈ fields, c ∈ f := by
  induction fields with
  | nil => exact absurd rfl hne
  | cons f rest ih =>
    cases rest with
    | nil =>
      rcases List.eq_nil_or_concat f with rfl | ⟨u, c, hf2⟩
      · exact absurd rfl (hf [] (List.mem_cons_self _ _))
      · rw [List.concat_eq_append] at hf2
        subst hf2
        exact ⟨u, c, by rw [joinTab, intercalate_single],
          ⟨u ++ [c], List.mem_cons_self _ _, by simp⟩⟩
    | cons g rest2 =>
      obtain ⟨u, c, hjoin, f2, hf2, hcf2⟩ :=
        ih (by simp) (fun x hx => hf x (List.mem_cons_of_mem f hx))
      refine ⟨f ++ ['\t'] ++ u, c, ?_, f2, List.mem_cons_of_mem f hf2, hcf2⟩
      rw [joinTab, intercalate_cons2]
      rw [joinTab] at hjoin
      rw [hjoin]
      simp

theorem goodHostsOption_no_break {l : Str} (h : GoodHostsOptionLine l) :
    '\n' ∉ l ∧ '\r' ∉ l := by
  obtain ⟨fields, tail, _, hfields, htail, rfl⟩ := h
  constructor <;> intro hmem
  · rcases List.mem_append.mp hmem with h1 | h2
    · rcases joinTab_mem_char h1 with h3 | ⟨f, hf, hcf⟩
      · cases h3
      · have := (hfields f hf).2 '\n' hcf
        simp [isWS] at this
    · rcases htail with rfl | ⟨_, hnl, _, _⟩
      · cases h2
      · exact hnl h2
  · rcases List.mem_append.mp hmem with h1 | h2
    · rcases joinTab_mem_char h1 with h3 | ⟨f, hf, hcf⟩
      · cases h3
      · have := (hfields f hf).2 '\r' hcf
        simp [isWS] at this
    · rcases htail with rfl | ⟨_, _, hcr, _⟩
      · cases h2
      · exact hcr h2

theorem goodHostsLine_no_break {l : Str} (h : GoodHostsLine l) : '\n' ∉ l ∧ '\r' ∉ l := by
  rcases h with ⟨hnl, hcr, _⟩ | hopt
  · exact ⟨hnl, hcr⟩
  · exact goodHostsOption_no_break hopt

theorem hostsParseLine_comment {l : Str} (h : GoodHostsCommentLine l) :
    hostsParseLine l = .all_comment l := by
  obtain ⟨hnl, hcr, t2, hl⟩ := h
  have hhash : isWS '#' = false := by decide
  obtain ⟨t3, ht3⟩ := rstrip_head t2 hhash
  have hstrip : strip l = '#' :: t3 := by rw [strip, hl, ht3]
  have hfst : (chop_comment ('#' :: t3) ['#']).1 = [] := by
    rw [chop_comment_eq_span]
    show List.takeWhile (notCommentChar ['#']) ('#' :: t3) = []
    rw [List.takeWhile_cons]
    have hn : notCommentChar ['#'] '#' = false := by decide
    rw [hn]
    simp
  simp only [hostsParseLine, hstrip]
  rw [if_neg (by simp)]
  show (if (chop_comment ('#' :: t3) ['#']).1.length = 0 then HostsEntry.all_comment l
    else HostsEntry.option (splitNone (chop_comment ('#' :: t3) ['#']).1)
      (chop_comment ('#' :: t3) ['#']).2) = HostsEntry.all_comment l
  rw [hfst]
  rfl

theorem joinTab_head {c : Char} {ft : Str} (fs : List Str) :
    ∃ bt, joinTab ((c :: ft) :: fs) = c :: bt := by
  cases fs with
  | nil => exact ⟨ft, by rw [joinTab, intercalate_single]⟩
  | cons g rest =>
    refine ⟨ft ++ ['\t'] ++ List.intercalate ['\t'] (g :: rest), ?_⟩
    rw [joinTab, intercalate_cons2]
    simp

theorem hosts_roundtrip_line {l : Str} (h : GoodHostsLine l) :
    hostsRenderEntry (hostsParseLine l) = l ++ ['\n'] := by
  rcases h with hcom | hopt
  · rw [hostsParseLine_comment hcom]
    rfl
  · obtain ⟨fields, tail, hfne, hfields, htail, rfl⟩ := hopt
    have htab : isWS '\t' = true := by decide
    -- the body starts with a non-whitespace character
    obtain ⟨f, fs, rfl⟩ : ∃ f fs, fields = f :: fs := by
      cases fields with
      | nil => exact absurd rfl hfne
      | cons f fs => exact ⟨f, fs, rfl⟩
    obtain ⟨c, ft, rfl⟩ : ∃ c ft, f = c :: ft := by
      cases f with
      | nil => exact absurd rfl (hfields [] (List.mem_cons_self _ _)).1
      | cons c ft => exact ⟨c, ft, rfl⟩
    have hc := (hfields (c :: ft) (List.mem_cons_self _ _)).2 c (List.mem_cons_self _ _)
    obtain ⟨bt, hbody⟩ := @joinTab_head c ft fs
    -- no character of the body is a hash (tabs and field characters)
    have hbodychar : ∀ x ∈ joinTab ((c :: ft) :: fs), x ≠ '#' := by
      intro x hx
      rcases joinTab_mem_char hx with rfl | ⟨f2, hf2, hxf2⟩
      · decide
      · exact ((hfields f2 hf2).2 x hxf2).2
    -- strip is the identity on the whole line
    have hlstrip : lstrip (joinTab ((c :: ft) :: fs) ++ tail)
        = joinTab ((c :: ft) :: fs) ++ tail := by
      rw [hbody, List.cons_append]
      exact lstrip_cons_not_ws _ hc.1
    have hrstrip : rstrip (joinTab ((c :: ft) :: fs) ++ tail)
        = joinTab ((c :: ft) :: fs) ++ tail := by
      rcases htail with rfl | ⟨⟨t2, htl⟩, _, _, hrs⟩
      · rw [List.append_nil]
        obtain ⟨u, cl, hconcat, f2, hf2, hclf2⟩ :=
          joinTab_concat hfne (fun x hx => (hfields x hx).1)
        rw [hconcat]
        exact rstrip_concat_not_ws u ((hfields f2 hf2).2 cl hclf2).1
      · have htne : rstrip tail ≠ [] := by
          rw [hrs, htl]
          simp
        rw [rstrip_append_right _ htne, hrs]
    have hstrip : strip (joinTab ((c :: ft) :: fs) ++ tail)
        = joinTab ((c :: ft) :: fs) ++ tail := by
      rw [strip, hlstrip, hrstrip]
    -- the comment chop splits exactly at the stored tail
    have hp : ∀ x ∈ joinTab ((c :: ft) :: fs), notCommentChar ['#'] x = true := by
      intro x hx
      simp [notCommentChar, hbodychar x hx]
    have hchop : chop_comment (joinTab ((c :: ft) :: fs) ++ tail) ['#']
        = (joinTab ((c :: ft) :: fs), tail) := by
      rw [chop_comment_eq_span]
      rcases htail with rfl | ⟨⟨t2, htl⟩, _, _, _⟩
      · rw [List.append_nil, takeWhile_all hp, dropWhile_all hp]
      · rw [takeWhile_append_all _ hp, dropWhile_append_all _ hp, htl,
          List.takeWhile_cons, List.dropWhile_cons]
        have hn : notCommentChar ['#'] '#' = false := by decide
        rw [hn]
        simp
    -- assemble the parse
    have hparse : hostsParseLine (joinTab ((c :: ft) :: fs) ++ tail)
        = .option ((c :: ft) :: fs) tail := by
      simp only [hostsParseLine, hstrip]
      rw [if_neg (by rw [hbody]; simp)]
      show (if (chop_comment (joinTab ((c :: ft) :: fs) ++ tail) ['#']).1.length = 0
        then HostsEntry.all_comment (joinTab ((c :: ft) :: fs) ++ tail)
        else HostsEntry.option
          (splitNone (chop_comment (joinTab ((c :: ft) :: fs) ++ tail) ['#']).1)
          (chop_comment (joinTab ((c :: ft) :: fs) ++ tail) ['#']).2) = _
      rw [hchop]
      show (if (joinTab ((c :: ft) :: fs)).length = 0
        then HostsEntry.all_comment (joinTab ((c :: ft) :: fs) ++ tail)
        else HostsEntry.option (splitNone (joinTab ((c :: ft) :: fs))) tail) = _
      rw [if_neg (by rw [hbody]; simp)]
      rw [joinTab, splitNone_intercalate htab _
        (fun x hx => ⟨(hfields x hx).1, fun y hy => ((hfields x hx).2 y hy).1⟩)]
    rw [hparse, hostsRenderEntry]

/-! ## uniq_list lemmas -/

theorem uniq_aux_mem (u l : List Str) (x : Str) :
    x ∈ List.foldl (fun outList i => if i ∈ outList then outList else outList ++ [i]) u l
      ↔ x ∈ u ∨ x ∈ l := by
  induction l generalizing u with
  | nil => simp
  | cons a t ih =>
    rw [List.foldl_cons]
    by_cases ha : a ∈ u
    · rw [if_pos ha, ih]
      constructor
      · rintro (h | h)
        · exact Or.inl h
        · exact Or.inr (List.mem_cons_of_mem a h)
      · rintro (h | h)
        · exact Or.inl h
        · rcases List.mem_cons.mp h with rfl | h2
          · exact Or.inl ha
          · exact Or.inr h2
    · rw [if_neg ha, ih]
      simp only [List.mem_append, List.mem_singleton, List.mem_cons]
      tauto

theorem uniq_aux_nodup (u : List Str) (l : List Str) (hu : u.Nodup) :
    (List.foldl (fun outList i => if i ∈ outList then outList else outList ++ [i]) u l).Nodup := by
  induction l generalizing u with
  | nil => exact hu
  | cons a t ih =>
    rw [List.foldl_cons]
    by_cases ha : a ∈ u
    · rw [if_pos ha]
      exact ih u hu
    · rw [if_neg ha]
      refine ih _ ?_
      rw [List.nodup_append]
      refine ⟨hu, List.nodup_singleton a, ?_⟩
      intro x hx hxa
      rw [List.mem_singleton] at hxa
      subst hxa
      exact ha hx

theorem uniq_aux_eq_self (u l : List Str) (h : (u ++ l).Nodup) :
    List.foldl (fun outList i => if i ∈ outList then outList else outList ++ [i]) u l
      = u ++ l := by
  induction l generalizing u with
  | nil => simp
  | cons a t ih =>
    have ha : a ∉ u := by
      intro hmem
      rw [List.nodup_append] at h
      exact h.2.2 hmem (List.mem_cons_self a t)
    rw [List.foldl_cons, if_neg ha]
    have h2 : ((u ++ [a]) ++ t).Nodup := by
      rw [List.append_assoc, List.singleton_append]
      exact h
    have := ih (u ++ [a]) h2
    rw [this, List.append_assoc, List.singleton_append]

theorem uniq_list_mem (l : List Str) (x : Str) : x ∈ uniq_list l ↔ x ∈ l := by
  rw [uniq_list]
  simpa using uniq_aux_mem [] l x

theorem uniq_list_nodup (l : List Str) : (uniq_list l).Nodup :=
  uniq_aux_nodup [] l List.nodup_nil

theorem uniq_list_eq_self {l : List Str} (h : l.Nodup) : uniq_list l = l := by
  rw [uniq_list]
  simpa using uniq_aux_eq_self [] l (by simpa using h)

theorem uniq_list_concat (l : List Str) (x : Str) :
    uniq_list (l ++ [x])
      = if x ∈ uniq_list l then uniq_list l else uniq_list l ++ [x] := by
  rw [uniq_list, uniq_list, List.foldl_append]
  rfl

theorem uniq_list_append_new {l : List Str} {x : Str} (h : l.Nodup) (hx : x ∉ l) :
    uniq_list (l ++ [x]) = l ++ [x] := by
  refine uniq_list_eq_self ?_
  rw [List.nodup_append]
  refine ⟨h, List.nodup_singleton x, ?_⟩
  intro y hy hyx
  rw [List.mem_singleton] at hyx
  subst hyx
  exact hx hy

/-! ## retr_option and remove_option lemmas -/

theorem retr_option_append (a b : List ResolvEntry) (o : Str) :
    ResolvConf.retr_option (a ++ b) o
      = ResolvConf.retr_option a o ++ ResolvConf.retr_option b o := by
  rw [ResolvConf.retr_option, ResolvConf.retr_option, ResolvConf.retr_option,
    List.filterMap_append]

theorem retr_option_map_options (l : List Str) (o : Str) :
    ResolvConf.retr_option (l.map fun n => ResolvEntry.option o n []) o = l := by
  induction l with
  | nil => rfl
  | cons a t ih =>
    rw [List.map_cons, ResolvConf.retr_option, List.filterMap_cons]
    rw [ResolvConf.retr_option] at ih
    simp [ih]

theorem retr_option_remove (st : List ResolvEntry) (o : Str) :
    ResolvConf.retr_option (ResolvConf.remove_option st o) o = [] := by
  induction st with
  | nil => rfl
  | cons e t ih =>
    rw [ResolvConf.remove_option, List.filter_cons]
    rw [ResolvConf.remove_option] at ih
    cases e with
    | blank l =>
      simp only [removeOpt, Bool.not_false, if_pos]
      rw [ResolvConf.retr_option, List.filterMap_cons]
      exact ih
    | all_comment l =>
      simp only [removeOpt, Bool.not_false, if_pos]
      rw [ResolvConf.retr_option, List.filterMap_cons]
      exact ih
    | option cfg_opt v tl =>
      by_cases hopt : cfg_opt = o
      · subst hopt
        rw [if_neg (by simp [removeOpt])]
        exact ih
      · rw [if_pos (by simp [removeOpt, hopt])]
        rw [ResolvConf.retr_option, List.filterMap_cons]
        simp only [if_neg hopt]
        exact ih

theorem remove_option_no_option (st : List ResolvEntry) (o : Str) :
    ∀ e ∈ ResolvConf.remove_option st o, ∀ v tl, e ≠ ResolvEntry.option o v tl := by
  intro e he v tl heq
  subst heq
  rw [ResolvConf.remove_option, List.mem_filter] at he
  simp [removeOpt] at he

/-! ## search_domains lemmas -/

theorem search_domains_tokens (st : List ResolvEntry) :
    ∀ sd ∈ ResolvConf.search_domains st, sd ≠ [] ∧ ∀ c ∈ sd, isWS c = false := by
  intro sd hsd
  rw [ResolvConf.search_domains, List.mem_flatMap] at hsd
  obtain ⟨v, hv, hmem⟩ := hsd
  rw [List.mem_filter] at hmem
  refine ⟨by simpa using hmem.2, ?_⟩
  exact (splitNone_tokens v sd hmem.1).2

theorem search_domains_remove_single (st : List ResolvEntry) (v : Str) :
    ResolvConf.search_domains
        (ResolvConf.remove_option st searchKw ++ [ResolvEntry.option searchKw v []])
      = (splitNone v).filter (fun sd => sd ≠ []) := by
  rw [ResolvConf.search_domains, retr_option_append, retr_option_remove]
  have hone : ResolvConf.retr_option [ResolvEntry.option searchKw v []] searchKw = [v] := by
    rw [ResolvConf.retr_option, List.filterMap_cons]
    simp
  rw [hone]
  simp

/-! ## Resolver parse failure lemmas -/

/-- A resolver line that is neither blank nor pure comment, splits into a
keyword and a value, but whose keyword is outside the closed vocabulary. -/
def BadDirectiveLine (l : Str) : Prop :=
  (strip l).length ≠ 0 ∧
  (strip (chop_comment l [';', '#']).1).length ≠ 0 ∧
  ∃ kw v, splitNoneOnce (chop_comment l [';', '#']).1 = [kw, v] ∧
    resolvKeywords.contains kw = false

theorem resolvParseLine_bad {i : Nat} {l : Str} (h : BadDirectiveLine l) :
    ∃ msg, resolvParseLine i l = .error msg := by
  obtain ⟨h1, h2, kw, v, hsplit, hkw⟩ := h
  refine ⟨("Unexpected resolv.conf option ").toList ++ kw, ?_⟩
  simp only [resolvParseLine]
  rw [if_neg h1]
  show (if (strip (chop_comment l [';', '#']).1).length = 0
      then Except.ok (ResolvEntry.all_comment l)
      else
        match splitNoneOnce (chop_comment l [';', '#']).1 with
        | [cfg_opt, cfg_values] =>
          if resolvKeywords.contains cfg_opt
          then Except.ok (ResolvEntry.option cfg_opt cfg_values (chop_comment l [';', '#']).2)
          else Except.error (("Unexpected resolv.conf option ").toList ++ cfg_opt)
        | _ => Except.error (("Incorrectly formatted resolv.conf line ").toList
            ++ natStr (i + 1))) = _
  rw [if_neg h2, hsplit]
  show (if resolvKeywords.contains kw
      then Except.ok (ResolvEntry.option kw v (chop_comment l [';', '#']).2)
      else Except.error (("Unexpected resolv.conf option ").toList ++ kw)) = _
  rw [hkw]
  simp

theorem parseLines_error (i : Nat) (lines : List Str)
    (h : ∃ l ∈ lines, BadDirectiveLine l) :
    ∃ msg, ResolvConf.parseLines i lines = .error msg := by
  induction lines generalizing i with
  | nil =>
    obtain ⟨l, hl, _⟩ := h
    cases hl
  | cons a t ih =>
    rcases h with ⟨l, hl, hbad⟩
    rcases List.mem_cons.mp hl with rfl | hlt
    · obtain ⟨msg, hmsg⟩ := @resolvParseLine_bad i l hbad
      exact ⟨msg, by rw [ResolvConf.parseLines, hmsg]⟩
    · cases hline : resolvParseLine i a with
      | error e => exact ⟨e, by rw [ResolvConf.parseLines, hline]⟩
      | ok entry =>
        obtain ⟨msg, hmsg⟩ := ih (i + 1) ⟨l, hlt, hbad⟩
        exact ⟨msg, by rw [ResolvConf.parseLines, hline, hmsg]⟩

/-! ## Branch lemmas for add_nameserver / add_search_domain -/

theorem add_nameserver_eq_noop {st : List ResolvEntry} {ns : Str}
    (h : (uniq_list (ResolvConf.retr_option st nameserverKw ++ [ns])).length
        = (ResolvConf.retr_option st nameserverKw).length) :
    ResolvConf.add_nameserver st ns
      = (.ok (ResolvConf.retr_option st nameserverKw), st) := by
  simp only [ResolvConf.add_nameserver]
  rw [if_pos h]

theorem add_nameserver_eq_limit {st : List ResolvEntry} {ns : Str}
    (h : (uniq_list (ResolvConf.retr_option st nameserverKw ++ [ns])).length
        ≠ (ResolvConf.retr_option st nameserverKw).length)
    (h3 : (ResolvConf.retr_option st nameserverKw).length ≥ 3) :
    ResolvConf.add_nameserver st ns = (.error (nsLimitMsg ns), st) := by
  simp only [ResolvConf.add_nameserver]
  rw [if_neg h, if_pos h3]

theorem add_nameserver_eq_success {st : List ResolvEntry} {ns : Str}
    (h : (uniq_list (ResolvConf.retr_option st nameserverKw ++ [ns])).length
        ≠ (ResolvConf.retr_option st nameserverKw).length)
    (h3 : ¬ (ResolvConf.retr_option st nameserverKw).length ≥ 3) :
    ResolvConf.add_nameserver st ns
      = (.ok (uniq_list (ResolvConf.retr_option st nameserverKw ++ [ns])),
         ResolvConf.remove_option st nameserverKw
           ++ (uniq_list (ResolvConf.retr_option st nameserverKw ++ [ns])).map
                fun n => ResolvEntry.option nameserverKw n []) := by
  simp only [ResolvConf.add_nameserver]
  rw [if_neg h, if_neg h3]

/-- The nameservers of the state left by a successful mutating add. -/
theorem retr_option_after_add (st : List ResolvEntry) (l : List Str) :
    ResolvConf.retr_option
        (ResolvConf.remove_option st nameserverKw
          ++ l.map fun n => ResolvEntry.option nameserverKw n []) nameserverKw = l := by
  rw [retr_option_append, retr_option_remove, retr_option_map_options, List.nil_append]

/-! ## Claim theorems -/

/-- C1: the hosts renderer does NOT emit the original text of a blank line.
On the single blank line consisting of one space, the rendered output is the
literal three characters `%s` and newline (the source writes the format
string `"%s\n"` without supplying the stored line), not the original line
followed by a newline as the claim states.  This contradicts the obvious
intent (the comment branch right next to it does interpolate the stored
line), so the claim is right and the code has a bug. -/
theorem C1_blank_line_renders_percent_literal :
    HostsConf.render (HostsConf.parse [' ', '\n']) = ['%', 's', '\n']
      ∧ ['%', 's', '\n'] ≠ [' ', '\n'] := by
  decide

/-- C2 counterexample: a text consisting of one blank line does not round
trip: rendering the parse of `"\n"` yields the literal `"%s\n"`. -/
theorem C2_counterexample : HostsConf.render (HostsConf.parse ['\n']) ≠ ['\n'] := by
  decide

/-- C2 (amended): render∘parse is the identity on texts that are
concatenations of newline-terminated good hosts lines: comment lines, or
option lines already written as nonempty tab-joined fields (no whitespace or
`#` in a field, single tabs, an optional `#` comment tail with no trailing
whitespace).  Blank lines must be excluded (the renderer emits `%s` for
them, see C1), lines must contain no line-break characters (`'\n'` or
`'\r'`, at which `splitlines` would cut), and the text must end in a
newline (the renderer terminates every line). -/
theorem C2_roundtrip_amended (lines : List Str) (h : ∀ l ∈ lines, GoodHostsLine l) :
    HostsConf.render (HostsConf.parse ((lines.map (fun l => l ++ ['\n'])).flatten))
      = (lines.map (fun l => l ++ ['\n'])).flatten := by
  rw [HostsConf.parse,
    splitlines_flatten lines (fun l hl => (goodHostsLine_no_break (h l hl)).1)
      (fun l hl => (goodHostsLine_no_break (h l hl)).2),
    HostsConf.render, List.map_map]
  congr 1
  exact List.map_congr_left fun l hl => hosts_roundtrip_line (h l hl)

/-- C2 witness: a comment line and a tab-joined option line round trip. -/
theorem C2_roundtrip_amended_witness :
    HostsConf.render (HostsConf.parse
        (([['#', ' ', 'c'], ['1', '.', '2', '\t', 'h']].map (fun l => l ++ ['\n'])).flatten))
      = (([['#', ' ', 'c'], ['1', '.', '2', '\t', 'h']].map (fun l => l ++ ['\n'])).flatten) :=
  C2_roundtrip_amended [['#', ' ', 'c'], ['1', '.', '2', '\t', 'h']] (by
    intro l hl
    rcases List.mem_cons.mp hl with rfl | hl2
    · exact Or.inl ⟨by decide, by decide, [' ', 'c'], by decide⟩
    · rcases List.mem_cons.mp hl2 with rfl | hl3
      · exact Or.inr ⟨[['1', '.', '2'], ['h']], [], by decide, by decide, Or.inl rfl, by decide⟩
      · cases hl3)

/-- C3 counterexample: the unexpected-directive failure on the text
`"foo bar"` (whose offending line is line 1) produces the message
`Unexpected resolv.conf option foo`, which names the keyword and does not
contain the character `1` at all, so the report does not include the 1-based
line number as the claim states. -/
theorem C3_counterexample :
    ResolvConf.parse (("foo bar").toList)
        = .error (("Unexpected resolv.conf option foo").toList)
      ∧ '1' ∉ (("Unexpected resolv.conf option foo").toList) := by
  decide

/-- C3 (amended): for every text containing a non-blank, non-comment line
whose keyword is outside the closed vocabulary, parsing fails with an error,
and no partial document is produced (the parse returns no entry list, and in
the source `self._contents` is never assigned, so nameservers and search
domains are not queryable).  The unexpected-directive report names the
keyword; it is the malformed-line error, not this one, that carries the
1-based line number. -/
theorem C3_bad_directive_fails (text : Str)
    (h : ∃ l ∈ splitlines text, BadDirectiveLine l) :
    ∃ msg, ResolvConf.parse text = .error msg := by
  rw [ResolvConf.parse]
  exact parseLines_error 0 (splitlines text) h

/-- C3 witness: a good line followed by a bad-keyword line fails to parse. -/
theorem C3_bad_directive_fails_witness :
    ∃ msg, ResolvConf.parse (("nameserver 1.1.1.1\nfoo bar\n").toList) = .error msg :=
  C3_bad_directive_fails (("nameserver 1.1.1.1\nfoo bar\n").toList)
    ⟨("foo bar").toList, by decide, by decide, by decide,
      ("foo").toList, ("bar").toList, by decide, by decide⟩

/-- C4 counterexample: a document whose nameservers query returns the 3
values `a`, `a`, `b` (with an internal duplicate), none of which equals `c`,
does NOT raise on `add_nameserver("c")`: the deduplicated length check
miscounts (`uniq [a,a,b,c]` has the same length as `[a,a,b]`), so the call
returns the unchanged list without an error instead of raising
LimitExceeded. -/
theorem C4_counterexample :
    ResolvConf.nameservers
        [ResolvEntry.option nameserverKw ['a'] [], ResolvEntry.option nameserverKw ['a'] [],
         ResolvEntry.option nameserverKw ['b'] []] = [['a'], ['a'], ['b']]
      ∧ (['c'] : Str) ∉ ([['a'], ['a'], ['b']] : List Str)
      ∧ ResolvConf.add_nameserver
          [ResolvEntry.option nameserverKw ['a'] [], ResolvEntry.option nameserverKw ['a'] [],
           ResolvEntry.option nameserverKw ['b'] []] ['c']
        = (.ok [['a'], ['a'], ['b']],
           [ResolvEntry.option nameserverKw ['a'] [], ResolvEntry.option nameserverKw ['a'] [],
            ResolvEntry.option nameserverKw ['b'] []]) := by
  decide

/-- C4 (amended): on a document whose nameservers query returns 3 pairwise
distinct values, none equal to `ns`, `add_nameserver ns` raises the
3-nameserver LimitExceeded error and leaves the document unchanged: the
state component is the original entry list, so the nameservers query and the
rendered text afterwards are unchanged. -/
theorem C4_limit_amended (st : List ResolvEntry) (ns : Str)
    (h3 : (ResolvConf.nameservers st).length = 3)
    (hnd : (ResolvConf.nameservers st).Nodup)
    (hns : ns ∉ ResolvConf.nameservers st) :
    ResolvConf.add_nameserver st ns = (.error (nsLimitMsg ns), st)
      ∧ ResolvConf.nameservers (ResolvConf.add_nameserver st ns).2
          = ResolvConf.nameservers st
      ∧ ResolvConf.render (ResolvConf.add_nameserver st ns).2 = ResolvConf.render st := by
  have hflat : ResolvConf.nameservers st = ResolvConf.retr_option st nameserverKw := rfl
  rw [hflat] at h3 hnd hns
  have hu : uniq_list (ResolvConf.retr_option st nameserverKw ++ [ns])
      = ResolvConf.retr_option st nameserverKw ++ [ns] := uniq_list_append_new hnd hns
  have hne : (uniq_list (ResolvConf.retr_option st nameserverKw ++ [ns])).length
      ≠ (ResolvConf.retr_option st nameserverKw).length := by
    rw [hu, List.length_append]
    simp
  have hcall := add_nameserver_eq_limit hne (by rw [h3])
  refine ⟨hcall, ?_, ?_⟩ <;> rw [hcall]

/-- C4 witness: three distinct nameservers, a fresh fourth raises. -/
theorem C4_limit_amended_witness :
    ResolvConf.add_nameserver
        [ResolvEntry.option nameserverKw ['a'] [], ResolvEntry.option nameserverKw ['b'] [],
         ResolvEntry.option nameserverKw ['c'] []] ['d']
      = (.error (nsLimitMsg ['d']),
         [ResolvEntry.option nameserverKw ['a'] [], ResolvEntry.option nameserverKw ['b'] [],
          ResolvEntry.option nameserverKw ['c'] []])
      ∧ ResolvConf.nameservers (ResolvConf.add_nameserver
          [ResolvEntry.option nameserverKw ['a'] [], ResolvEntry.option nameserverKw ['b'] [],
           ResolvEntry.option nameserverKw ['c'] []] ['d']).2
        = ResolvConf.nameservers
          [ResolvEntry.option nameserverKw ['a'] [], ResolvEntry.option nameserverKw ['b'] [],
           ResolvEntry.option nameserverKw ['c'] []]
      ∧ ResolvConf.render (ResolvConf.add_nameserver
          [ResolvEntry.option nameserverKw ['a'] [], ResolvEntry.option nameserverKw ['b'] [],
           ResolvEntry.option nameserverKw ['c'] []] ['d']).2
        = ResolvConf.render
          [ResolvEntry.option nameserverKw ['a'] [], ResolvEntry.option nameserverKw ['b'] [],
           ResolvEntry.option nameserverKw ['c'] []] :=
  C4_limit_amended
    [ResolvEntry.option nameserverKw ['a'] [], ResolvEntry.option nameserverKw ['b'] [],
     ResolvEntry.option nameserverKw ['c'] []] ['d'] (by decide) (by decide) (by decide)

set_option maxRecDepth 4000 in
/-- C5 counterexample: on a document whose flattened search-domain list is
`[a, a, b]` (internal duplicate, combined string within the limit), adding a
253-character domain would produce the combined string `a b ccc...c` of 257
characters, beyond the 256 ceiling; yet the call returns successfully (the
dedup length check miscounts) instead of raising LimitExceeded. -/
theorem C5_counterexample :
    (joinSpace (ResolvConf.search_domains
        [ResolvEntry.option searchKw ['a', ' ', 'a', ' ', 'b'] []])).length ≤ 256
      ∧ List.replicate 253 'c'
          ∉ ResolvConf.search_domains [ResolvEntry.option searchKw ['a', ' ', 'a', ' ', 'b'] []]
      ∧ (joinSpace (uniq_list (ResolvConf.search_domains
            [ResolvEntry.option searchKw ['a', ' ', 'a', ' ', 'b'] []]
          ++ [List.replicate 253 'c']))).length > 256
      ∧ ResolvConf.add_search_domain
          [ResolvEntry.option searchKw ['a', ' ', 'a', ' ', 'b'] []] (List.replicate 253 'c')
        = (.ok [['a'], ['b'], List.replicate 253 'c'],
           [ResolvEntry.option searchKw ['a', ' ', 'a', ' ', 'b'] []]) := by
  decide

/-- C5 (amended): when the flattened search-domain list has no duplicates,
`d` is not in it, and the space-joined string of the list extended with `d`
exceeds 256 characters, `add_search_domain d` raises a LimitExceeded error
(the 256-character one, or the 6-entry one when the count ceiling is hit
first) and leaves the document unchanged. -/
theorem C5_charlimit_amended (st : List ResolvEntry) (d : Str)
    (hnd : (ResolvConf.search_domains st).Nodup)
    (hd : d ∉ ResolvConf.search_domains st)
    (hlen : (joinSpace (ResolvConf.search_domains st ++ [d])).length > 256) :
    ∃ msg, ResolvConf.add_search_domain st d = (.error msg, st) := by
  have hu : uniq_list (ResolvConf.search_domains st ++ [d])
      = ResolvConf.search_domains st ++ [d] := uniq_list_append_new hnd hd
  have hne : (ResolvConf.search_domains st).length
      ≠ (uniq_list (ResolvConf.search_domains st ++ [d])).length := by
    rw [hu, List.length_append]
    simp
  simp only [ResolvConf.add_search_domain]
  rw [if_neg hne]
  by_cases h6 : (ResolvConf.search_domains st).length ≥ 6
  · rw [if_pos h6]
    exact ⟨_, rfl⟩
  · rw [if_neg h6, if_pos (by rw [hu]; exact hlen)]
    exact ⟨_, rfl⟩

set_option maxRecDepth 4000 in
/-- C5 witness: one short domain plus one 256-character domain crosses the
character ceiling and raises. -/
theorem C5_charlimit_amended_witness :
    ∃ msg, ResolvConf.add_search_domain [ResolvEntry.option searchKw ['a'] []]
        (List.replicate 256 'b')
      = (.error msg, [ResolvEntry.option searchKw ['a'] []]) :=
  C5_charlimit_amended [ResolvEntry.option searchKw ['a'] []] (List.replicate 256 'b')
    (by decide) (by decide) (by decide)

theorem uniq_list_concat_mem {l : List Str} {x : Str} (hnd : l.Nodup) (hx : x ∈ l) :
    uniq_list (l ++ [x]) = l := by
  rw [uniq_list_concat, uniq_list_eq_self hnd, if_pos hx]

/-- C6 counterexample: on a document whose flattened search-domain list is
`[a, a, b]` (a pre-existing duplicate), adding the fresh domain `c` succeeds
but returns the deduplicated list `[a, b, c]` instead of the pre-call list,
leaves the document unchanged (no search line is removed or appended), and
afterwards `search_domains` still returns `[a, a, b]`, not the old list
followed by `c`. -/
theorem C6_counterexample :
    ResolvConf.search_domains [ResolvEntry.option searchKw ['a', ' ', 'a', ' ', 'b'] []]
        = [['a'], ['a'], ['b']]
      ∧ (['c'] : Str) ∉ ([['a'], ['a'], ['b']] : List Str)
      ∧ ResolvConf.add_search_domain
            [ResolvEntry.option searchKw ['a', ' ', 'a', ' ', 'b'] []] ['c']
          = (.ok [['a'], ['b'], ['c']],
             [ResolvEntry.option searchKw ['a', ' ', 'a', ' ', 'b'] []])
      ∧ ([['a'], ['b'], ['c']] : List Str) ≠ [['a'], ['a'], ['b']] := by
  decide

/-- C6 (amended): when the flattened search-domain list has no duplicates,
`d` is a nonempty whitespace-free domain not in it, and
`add_search_domain d` succeeds, the call returns the flattened list as it was
before the call, the new state is the old one with every `search` option
line removed and exactly one new `search` line appended whose value is the
space-joined list with `d` last, and `search_domains` afterwards returns the
old list followed by `d`. -/
theorem C6_add_success_amended (st : List ResolvEntry) (d : Str) (res : List Str)
    (st2 : List ResolvEntry)
    (hnd : (ResolvConf.search_domains st).Nodup)
    (hd : d ∉ ResolvConf.search_domains st)
    (hdne : d ≠ [])
    (hdws : ∀ c ∈ d, isWS c = false)
    (hcall : ResolvConf.add_search_domain st d = (.ok res, st2)) :
    res = ResolvConf.search_domains st
      ∧ st2 = ResolvConf.remove_option st searchKw
          ++ [ResolvEntry.option searchKw
                (joinSpace (ResolvConf.search_domains st ++ [d])) []]
      ∧ ResolvConf.search_domains st2 = ResolvConf.search_domains st ++ [d] := by
  have hu : uniq_list (ResolvConf.search_domains st ++ [d])
      = ResolvConf.search_domains st ++ [d] := uniq_list_append_new hnd hd
  have hne : (ResolvConf.search_domains st).length
      ≠ (uniq_list (ResolvConf.search_domains st ++ [d])).length := by
    rw [hu, List.length_append]
    simp
  simp only [ResolvConf.add_search_domain] at hcall
  rw [if_neg hne] at hcall
  by_cases h6 : (ResolvConf.search_domains st).length ≥ 6
  · rw [if_pos h6] at hcall
    simp at hcall
  · rw [if_neg h6] at hcall
    by_cases h256 : (joinSpace (uniq_list (ResolvConf.search_domains st ++ [d]))).length > 256
    · rw [if_pos h256] at hcall
      simp at hcall
    · rw [if_neg h256] at hcall
      rw [Prod.mk.injEq] at hcall
      obtain ⟨hres, hst⟩ := hcall
      injection hres with hres2
      have htoks : ∀ f ∈ ResolvConf.search_domains st ++ [d],
          f ≠ [] ∧ ∀ c ∈ f, isWS c = false := by
        intro f hf
        rcases List.mem_append.mp hf with hf1 | hf2
        · exact search_domains_tokens st f hf1
        · rw [List.mem_singleton] at hf2
          subst hf2
          exact ⟨hdne, hdws⟩
      refine ⟨hres2.symm, by rw [← hst, hu], ?_⟩
      rw [← hst, hu, search_domains_remove_single]
      rw [joinSpace, splitNone_intercalate (by decide) _ htoks]
      rw [List.filter_eq_self.mpr ?_]
      intro a ha
      simpa using (htoks a ha).1

/-- C6 witness: adding `b` to a document with the single search domain `a`
returns the old list, rewrites the search line as `a b`, and the query then
returns both domains. -/
theorem C6_add_success_amended_witness :
    ([['a']] : List Str) = ResolvConf.search_domains [ResolvEntry.option searchKw ['a'] []]
      ∧ [ResolvEntry.option searchKw ['a', ' ', 'b'] []]
          = ResolvConf.remove_option [ResolvEntry.option searchKw ['a'] []] searchKw
            ++ [ResolvEntry.option searchKw
                  (joinSpace (ResolvConf.search_domains
                      [ResolvEntry.option searchKw ['a'] []] ++ [['b']])) []]
      ∧ ResolvConf.search_domains [ResolvEntry.option searchKw ['a', ' ', 'b'] []]
          = ResolvConf.search_domains [ResolvEntry.option searchKw ['a'] []] ++ [['b']] :=
  C6_add_success_amended [ResolvEntry.option searchKw ['a'] []] ['b'] [['a']]
    [ResolvEntry.option searchKw ['a', ' ', 'b'] []]
    (by decide) (by decide) (by decide) (by decide) (by decide)

/-- C7: calling add_nameserver twice with the same value: if the first call
succeeds with result list and state, the second call returns the very same
list and leaves the state identical, so the rendered text after the second
call equals the rendered text after the first (a no-op, not an error). -/
theorem C7_add_nameserver_idempotent (st : List ResolvEntry) (x : Str)
    (l1 : List Str) (st1 : List ResolvEntry)
    (h : ResolvConf.add_nameserver st x = (.ok l1, st1)) :
    ResolvConf.add_nameserver st1 x = (.ok l1, st1)
      ∧ ResolvConf.render (ResolvConf.add_nameserver st1 x).2 = ResolvConf.render st1 := by
  by_cases hnoop : (uniq_list (ResolvConf.retr_option st nameserverKw ++ [x])).length
      = (ResolvConf.retr_option st nameserverKw).length
  · rw [add_nameserver_eq_noop hnoop] at h
    rw [Prod.mk.injEq] at h
    obtain ⟨hres, hst⟩ := h
    injection hres with hres2
    subst hst
    have hcall2 := add_nameserver_eq_noop hnoop
    rw [hres2] at hcall2
    exact ⟨hcall2, by rw [hcall2]⟩
  · by_cases h3 : (ResolvConf.retr_option st nameserverKw).length ≥ 3
    · rw [add_nameserver_eq_limit hnoop h3] at h
      simp at h
    · rw [add_nameserver_eq_success hnoop h3] at h
      rw [Prod.mk.injEq] at h
      obtain ⟨hres, hst⟩ := h
      injection hres with hres2
      have hretr1 : ResolvConf.retr_option st1 nameserverKw
          = uniq_list (ResolvConf.retr_option st nameserverKw ++ [x]) := by
        rw [← hst, retr_option_after_add]
      have hx : x ∈ uniq_list (ResolvConf.retr_option st nameserverKw ++ [x]) := by
        rw [uniq_list_mem]
        exact List.mem_append.mpr (Or.inr (List.mem_singleton.mpr rfl))
      have hnd := uniq_list_nodup (ResolvConf.retr_option st nameserverKw ++ [x])
      have hnoop2 : (uniq_list (ResolvConf.retr_option st1 nameserverKw ++ [x])).length
          = (ResolvConf.retr_option st1 nameserverKw).length := by
        rw [hretr1, uniq_list_concat_mem hnd hx]
      have hcall2 := add_nameserver_eq_noop hnoop2
      rw [hretr1, hres2] at hcall2
      exact ⟨hcall2, by rw [hcall2]⟩

/-- C7 witness: after adding `a` to an empty document, adding `a` again
returns the same list and the same rendered text. -/
theorem C7_add_nameserver_idempotent_witness :
    ResolvConf.add_nameserver [ResolvEntry.option nameserverKw ['a'] []] ['a']
        = (.ok [['a']], [ResolvEntry.option nameserverKw ['a'] []])
      ∧ ResolvConf.render (ResolvConf.add_nameserver
            [ResolvEntry.option nameserverKw ['a'] []] ['a']).2
          = ResolvConf.render [ResolvEntry.option nameserverKw ['a'] []] :=
  C7_add_nameserver_idempotent [] ['a'] [['a']]
    [ResolvEntry.option nameserverKw ['a'] []] (by decide)

/-- The per-entry keep predicate of `del_entries`: non-option entries are
kept; an option entry is kept exactly when its field list is nonempty and its
first field differs from `ip`. -/
def hostsKeep (ip : Str) : HostsEntry → Bool
  | .option [] _ => false
  | .option (p0 :: _) _ => !(p0 = ip)
  | _ => true

/-- C8: del_entries is exactly a filter over the entry sequence: it removes
the option lines whose first field equals `ip` together with any
empty-field option line, and nothing else.  Consequently the result is a
sublist of the original (surviving entries keep their relative order) and
every blank and comment record survives. -/
theorem C8_del_entries_frame (contents : List HostsEntry) (ip : Str) :
    HostsConf.del_entries contents ip = contents.filter (hostsKeep ip)
      ∧ (HostsConf.del_entries contents ip).Sublist contents
      ∧ (∀ l, HostsEntry.blank l ∈ contents
          → HostsEntry.blank l ∈ HostsConf.del_entries contents ip)
      ∧ (∀ l, HostsEntry.all_comment l ∈ contents
          → HostsEntry.all_comment l ∈ HostsConf.del_entries contents ip) := by
  have hfilter : HostsConf.del_entries contents ip = contents.filter (hostsKeep ip) := by
    induction contents with
    | nil => rfl
    | cons e rest ih =>
      cases e with
      | blank l =>
        simp only [HostsConf.del_entries, List.filter_cons, hostsKeep, if_pos]
        rw [ih]
      | all_comment l =>
        simp only [HostsConf.del_entries, List.filter_cons, hostsKeep, if_pos]
        rw [ih]
      | option pieces tl =>
        cases pieces with
        | nil =>
          simp only [HostsConf.del_entries, List.filter_cons, hostsKeep,
            Bool.false_eq_true, if_false]
          exact ih
        | cons p0 ps =>
          by_cases hip : p0 = ip
          · subst hip
            simp only [HostsConf.del_entries, List.filter_cons, hostsKeep, if_pos rfl]
            simp [ih]
          · simp only [HostsConf.del_entries, List.filter_cons, hostsKeep, if_neg hip]
            simp [hip, ih]
  refine ⟨hfilter, ?_, ?_, ?_⟩
  · rw [hfilter]
    exact List.filter_sublist contents
  · intro l hl
    rw [hfilter, List.mem_filter]
    exact ⟨hl, rfl⟩
  · intro l hl
    rw [hfilter, List.mem_filter]
    exact ⟨hl, rfl⟩

theorem strip_head_not_ws {l : Str} (h : (strip l).length ≠ 0) :
    ∃ c t, strip l = c :: t ∧ isWS c = false := by
  cases hl : lstrip l with
  | nil =>
    rw [strip, hl] at h
    simp [rstrip] at h
  | cons c t =>
    have hc : isWS c = false := dropWhile_head_false hl
    obtain ⟨t2, ht2⟩ := rstrip_head t hc
    exact ⟨c, t2, by rw [strip, hl, ht2], hc⟩

theorem hostsParseLine_option_ne_nil {line : Str} {pieces : List Str} {tail : Str}
    (h : hostsParseLine line = .option pieces tail) : pieces ≠ [] := by
  intro hnil
  subst hnil
  simp only [hostsParseLine] at h
  by_cases h1 : (strip line).length = 0
  · rw [if_pos h1] at h
    cases h
  · rw [if_neg h1] at h
    by_cases h2 : (chop_comment (strip line) ['#']).1.length = 0
    · rw [if_pos h2] at h
      cases h
    · rw [if_neg h2] at h
      injection h with hsplit _
      obtain ⟨c, t, hstrip, hc⟩ := strip_head_not_ws h1
      rw [hstrip] at h2 hsplit
      have hspan : (chop_comment (c :: t) ['#']).1
          = (c :: t).takeWhile (notCommentChar ['#']) := by
        rw [chop_comment_eq_span]
      rw [List.takeWhile_cons] at hspan
      by_cases hpc : notCommentChar ['#'] c = true
      · rw [if_pos hpc] at hspan
        have hdrop : List.dropWhile isWS (c :: List.takeWhile (notCommentChar ['#']) t)
            = c :: List.takeWhile (notCommentChar ['#']) t := by
          simp [List.dropWhile_cons, hc]
        rw [hspan, splitNone_eq_cons hdrop] at hsplit
        cases hsplit
      · rw [if_neg hpc] at hspan
        rw [hspan] at h2
        simp at h2

/-- C9: every option record produced by hosts-file parsing carries a
nonempty field list: a non-blank line whose stripped pre-comment content is
nonempty always whitespace-splits into at least one field, so the zero-field
branch of del_entries is unreachable on freshly parsed documents. -/
theorem C9_parsed_option_fields_nonempty (text : Str) :
    ∀ e ∈ HostsConf.parse text, ∀ pieces tail,
      e = HostsEntry.option pieces tail → pieces ≠ [] := by
  intro e he pieces tail heq
  rw [HostsConf.parse] at he
  obtain ⟨line, _, hline⟩ := List.mem_map.mp he
  exact hostsParseLine_option_ne_nil (by rw [hline, heq])

/-- C9 witness: the option parsed from the line `a` has the one field `a`. -/
theorem C9_witness : ([['a']] : List Str) ≠ [] :=
  C9_parsed_option_fields_nonempty ['a'] (HostsEntry.option [['a']] []) (by decide)
    [['a']] [] rfl

/-- C10 counterexample: a successful (no-op) add_nameserver call on a
document already containing the nameserver leaves the nameserver line in
place: its inline comment tail survives and the line is not at the end of
the sequence, contradicting the claim that every successful add rebuilds
all nameserver lines at the end with empty comment tails. -/
theorem C10_counterexample :
    ResolvConf.add_nameserver
        [ResolvEntry.option nameserverKw ['a'] [' ', '#', ' ', 'k'], ResolvEntry.blank []]
        ['a']
      = (.ok [['a']],
         [ResolvEntry.option nameserverKw ['a'] [' ', '#', ' ', 'k'], ResolvEntry.blank []])
      ∧ ([' ', '#', ' ', 'k'] : Str) ≠ []
      ∧ [ResolvEntry.option nameserverKw ['a'] [' ', '#', ' ', 'k'],
          ResolvEntry.blank []].getLast? = some (ResolvEntry.blank []) := by
  decide

/-- C10 (amended): an add_nameserver call that succeeds and actually changes
the document rebuilds the nameserver lines wholesale: the returned list is
the deduplicated old nameserver values with the new one last, the new state
is the old state with every nameserver option line removed followed by one
freshly built nameserver line per value with an empty comment tail (so any
inline comment previously attached to a nameserver line is discarded and
nameserver lines sit together at the end, keeping only their relative value
order), and the untouched front of the state contains no nameserver line. -/
theorem C10_rebuild_amended (st : List ResolvEntry) (ns : Str) (l : List Str)
    (st2 : List ResolvEntry)
    (h : ResolvConf.add_nameserver st ns = (.ok l, st2))
    (hchanged : st2 ≠ st) :
    l = uniq_list (ResolvConf.nameservers st ++ [ns])
      ∧ st2 = ResolvConf.remove_option st nameserverKw
          ++ l.map (fun n => ResolvEntry.option nameserverKw n [])
      ∧ ∀ e ∈ ResolvConf.remove_option st nameserverKw, ∀ v tl,
          e ≠ ResolvEntry.option nameserverKw v tl := by
  by_cases hnoop : (uniq_list (ResolvConf.retr_option st nameserverKw ++ [ns])).length
      = (ResolvConf.retr_option st nameserverKw).length
  · rw [add_nameserver_eq_noop hnoop] at h
    rw [Prod.mk.injEq] at h
    exact absurd h.2.symm hchanged
  · by_cases h3 : (ResolvConf.retr_option st nameserverKw).length ≥ 3
    · rw [add_nameserver_eq_limit hnoop h3] at h
      simp at h
    · rw [add_nameserver_eq_success hnoop h3] at h
      rw [Prod.mk.injEq] at h
      obtain ⟨hres, hst⟩ := h
      injection hres with hres2
      refine ⟨hres2.symm, ?_, remove_option_no_option st nameserverKw⟩
      rw [← hst, hres2]

/-- C10 witness: adding `a` to the empty document produces exactly one fresh
nameserver line with an empty comment tail. -/
theorem C10_rebuild_amended_witness :
    ([['a']] : List Str) = uniq_list (ResolvConf.nameservers ([] : List ResolvEntry) ++ [['a']])
      ∧ [ResolvEntry.option nameserverKw ['a'] []]
          = ResolvConf.remove_option ([] : List ResolvEntry) nameserverKw
            ++ ([['a']] : List Str).map (fun n => ResolvEntry.option nameserverKw n [])
      ∧ ∀ e ∈ ResolvConf.remove_option ([] : List ResolvEntry) nameserverKw, ∀ v tl,
          e ≠ ResolvEntry.option nameserverKw v tl :=
  C10_rebuild_amended [] ['a'] [['a']] [ResolvEntry.option nameserverKw ['a'] []]
    (by decide) (by decide)
